import Mathlib

/-!
Verification of the CPD changepoint/session pipeline
(`scripts/detect_changepoints.py`, `scripts/detect_sessions.py`).

Modelling choices:
* Timestamps are rationals, measured in hours from an arbitrary epoch;
  `pd.Timedelta(hours=h)` is the rational `h`.
* A feature table is a shared datetime index `List ℚ` plus named columns of
  `Option ℚ` values (`none` is a missing value, stripped by `dropna`).
* The ruptures detectors (Pelt/Binseg/Window/BottomUp) are external
  collaborators; they are modelled by an oracle
  `detector : String → List ℚ → List ℕ` giving, for a method name and a
  compacted signal, the index list `algo.predict(pen=penalty)[:-1]`
  (trailing sentinel already removed).
* pandas NaN semantics for empty-slice reductions: `min`/`max` of an empty
  slice is `none`, and any comparison against `none` is false.
-/

namespace CPD

section

attribute [local semireducible] Rat.add Rat.sub Rat.mul Rat.inv

abbrev Time := ℚ

/-- A Raw Breakpoint record `(bkp, feat)` as collected into `bkp_records`. -/
abbrev Rec := Time × String

/-- `sorted(bkp_records, key=lambda x: x[0])`: stable sort ascending by
timestamp. -/
def sortRecords (records : List Rec) : List Rec :=
  List.insertionSort (fun a b => a.1 ≤ b.1) records

/-- Fuelled form of the grouping scan of `detect_changepoints` (lines 72-83):
the seed `r` is the first not-yet-used record; it absorbs every later unused
record whose timestamp is within `tol` of the seed's timestamp
(`abs (bkp_records[j][0] - bkp_records[i][0]) <= tolerance_merge`); the `used`
flags become filtering the remainder. Fuel only forces structural recursion. -/
def groupScanF (tol : Time) : ℕ → List Rec → List (List Rec)
  | 0, _ => []
  | _, [] => []
  | fuel + 1, r :: rest =>
    (r :: rest.filter (fun s => |s.1 - r.1| ≤ tol)) ::
      groupScanF tol fuel (rest.filter (fun s => ¬ |s.1 - r.1| ≤ tol))

/-- The grouping scan (`aggregated_groups` construction). -/
def groupScan (tol : Time) (l : List Rec) : List (List Rec) :=
  groupScanF tol l.length l

/-- `list({feat for _, feat in group})`: the distinct contributing feature
names of a group (only membership and cardinality of this set are used). -/
def groupFeats (g : List Rec) : List String :=
  (g.map Prod.snd).dedup

/-- `pd.Series(timestamps).median()`: sort the values; for odd length take the
middle element, for even length the mean of the two middle elements. -/
def median (l : List Time) : Time :=
  let s := List.insertionSort (fun a b => a ≤ b) l
  if s.length % 2 = 1 then s.getD (s.length / 2) 0
  else (s.getD (s.length / 2 - 1) 0 + s.getD (s.length / 2) 0) / 2

/-- The group-filtering stage: keep groups with at least
`n_contributing_features` distinct contributing features (lines 89-91). -/
def keptGroups (n : ℕ) (groups : List (List Rec)) : List (List Rec) :=
  groups.filter (fun g => n ≤ (groupFeats g).length)

/-- The filter-and-aggregate stage (lines 86-95): emitted consensus timestamps
and the contributing-features dictionary (as an association list built in
emission order). -/
def aggregateGroups (n : ℕ) (groups : List (List Rec)) :
    List Time × List (Time × List String) :=
  ((keptGroups n groups).map (fun g => median (g.map Prod.fst)),
   (keptGroups n groups).map (fun g => (median (g.map Prod.fst), groupFeats g)))

/-- Flattening `breakpoints_per_feature` into `bkp_records` (line 68):
dict insertion order is column order. -/
def bkpRecords (perFeature : List (String × List Time)) : List Rec :=
  (perFeature.map (fun p => p.2.map (fun b => (b, p.1)))).flatten

/-- The whole merge-filter-aggregate tail of `detect_changepoints`
(lines 68-97), starting from the flattened raw breakpoint records. -/
def aggregateRecords (tol : Time) (n : ℕ) (records : List Rec) :
    List Time × List (Time × List String) :=
  aggregateGroups n (groupScan tol (sortRecords records))

/-- `method` values accepted by the dispatch on lines 50-61. -/
def supportedMethod (method : String) : Bool :=
  method = "pelt" || method = "binseg" || method = "window" || method = "bottomup"

/-- The per-feature detection loop (lines 44-65): drop missing values, skip the
column when the compacted signal is shorter than `2 * min_size_hours`,
dispatch on `method` (raising `ValueError` for an unknown method), and map
each returned index through the SHARED table index `features_df.index`. -/
def detectPerFeature (detector : String → List ℚ → List ℕ) (index : List Time)
    (minSize : ℕ) (method : String) :
    List (String × List (Option ℚ)) → Except String (List (String × List Time))
  | [] => .ok []
  | (name, col) :: rest =>
    if (col.filterMap id).length < 2 * minSize then
      detectPerFeature detector index minSize method rest
    else if supportedMethod method then
      match detectPerFeature detector index minSize method rest with
      | .error e => .error e
      | .ok tail =>
        .ok ((name, (detector method (col.filterMap id)).map
          (fun b => index.getD b 0)) :: tail)
    else
      .error ("Unknown method: " ++ method)

/-- `detect_changepoints` for a table already holding a datetime index:
per-feature detection followed by the merge-filter-aggregate stages. -/
def detect_changepoints (detector : String → List ℚ → List ℕ)
    (index : List Time) (cols : List (String × List (Option ℚ)))
    (method : String) (minSize : ℕ) (tol : Time) (n : ℕ) :
    Except String (List Time × List (Time × List String)) :=
  match detectPerFeature detector index minSize method cols with
  | .error e => .error e
  | .ok per => .ok (aggregateRecords tol n (bkpRecords per))

/-- Modelled from the spec: "Map remaining indices back to the feature's own
timestamp axis [...] index-to-timestamp mapping must use that column's own
retained index positions, not a shared axis."  The retained (non-missing)
sample timestamps of one column, in order. -/
def retainedTimestamps (index : List Time) (col : List (Option ℚ)) : List Time :=
  ((index.zip col).filter (fun p => p.2.isSome)).map Prod.fst

/-! ## Session classifier (`detect_sessions.py`) -/

/-- The load table restricted to the `max_kw` column: (timestamp, value). -/
abbrev LoadTable := List (Time × ℚ)

/-- `df.loc[lo:hi, max_kw_column]`: values at timestamps in `[lo, hi]`
(pandas label slicing is inclusive on both ends). -/
def sliceVals (df : LoadTable) (lo hi : Time) : List ℚ :=
  (df.filter (fun p => lo ≤ p.1 ∧ p.1 ≤ hi)).map Prod.snd

/-- `.min()` of a slice; `none` is pandas' NaN for an empty reduction. -/
def sliceMin (df : LoadTable) (lo hi : Time) : Option ℚ :=
  (sliceVals df lo hi).min?

/-- `.max()` of a slice; `none` is pandas' NaN for an empty reduction. -/
def sliceMax (df : LoadTable) (lo hi : Time) : Option ℚ :=
  (sliceVals df lo hi).max?

/-- `a - b > threshold` under NaN semantics: false whenever either reduction
was empty. -/
def exceedsBy (a b : Option ℚ) (thr : ℚ) : Bool :=
  match a, b with
  | some x, some y => decide (thr < x - y)
  | _, _ => false

/-- One iteration of the scan of `detect_sessions` (lines 30-57) at index `i`:
classify `bkp_i` as a start by the rising-edge test on the `[bkp-2h, bkp]` /
`[bkp, bkp+2h]` windows, then look ahead to `bkp_{i+1}` and emit
`(bkp_i, bkp_{i+1})` when the load falls back and the duration is at most
24 hours. -/
def sessionAt (df : LoadTable) (thr : ℚ) (bkps : List Time) (i : ℕ) :
    Option (Time × Time) :=
  let bkp := bkps.getD i 0
  let before_load := sliceMin df (bkp - 2) bkp
  let after_load := sliceMax df bkp (bkp + 2)
  if exceedsBy after_load before_load thr then
    if i + 1 < bkps.length then
      let next_bkp := bkps.getD (i + 1) 0
      let after_end_load := sliceMin df next_bkp (next_bkp + 2)
      if exceedsBy after_load after_end_load thr ∧ next_bkp - bkp ≤ 24 then
        some (bkp, next_bkp)
      else none
    else none
  else none

/-- `detect_sessions` for a table already holding a datetime index. -/
def detect_sessions (df : LoadTable) (bkps : List Time) (thr : ℚ) :
    List (Time × Time) :=
  (List.range bkps.length).filterMap (sessionAt df thr bkps)

/-! ## Basic facts about the grouping scan -/

instance : IsTotal Rec (fun a b => a.1 ≤ b.1) :=
  ⟨fun a b => le_total a.1 b.1⟩

instance : IsTrans Rec (fun a b => a.1 ≤ b.1) :=
  ⟨fun _ _ _ => le_trans⟩

theorem sortRecords_sorted (recs : List Rec) :
    List.Sorted (fun a b : Rec => a.1 ≤ b.1) (sortRecords recs) :=
  List.sorted_insertionSort _ recs

theorem sortRecords_perm (recs : List Rec) : (sortRecords recs).Perm recs :=
  List.perm_insertionSort _ recs

theorem groupScanF_nil (tol : Time) (f : ℕ) : groupScanF tol f [] = [] := by
  cases f <;> rfl

theorem groupScanF_fuel (tol : Time) :
    ∀ (f g : ℕ) (l : List Rec), l.length ≤ f → l.length ≤ g →
      groupScanF tol f l = groupScanF tol g l := by
  intro f
  induction f with
  | zero =>
    intro g l hf _
    have : l = [] := List.eq_nil_of_length_eq_zero (Nat.le_zero.mp hf)
    subst this
    simp [groupScanF_nil]
  | succ f ih =>
    intro g l hf hg
    cases l with
    | nil => simp [groupScanF_nil]
    | cons r rest =>
      cases g with
      | zero => simp at hg
      | succ g =>
        simp only [groupScanF]
        have hr : (rest.filter (fun s => ¬ |s.1 - r.1| ≤ tol)).length ≤ rest.length :=
          List.length_filter_le _ _
        have hf : rest.length ≤ f := Nat.succ_le_succ_iff.mp hf
        have hg : rest.length ≤ g := Nat.succ_le_succ_iff.mp hg
        rw [ih g _ (hr.trans hf) (hr.trans hg)]

theorem groupScan_nil (tol : Time) : groupScan tol [] = [] := rfl

theorem groupScan_cons (tol : Time) (r : Rec) (rest : List Rec) :
    groupScan tol (r :: rest) =
      (r :: rest.filter (fun s => |s.1 - r.1| ≤ tol)) ::
        groupScan tol (rest.filter (fun s => ¬ |s.1 - r.1| ≤ tol)) := by
  show groupScanF tol (rest.length + 1) (r :: rest) = _
  simp only [groupScanF]
  rw [groupScan, groupScanF_fuel tol rest.length _ _ (List.length_filter_le _ _) le_rfl]

theorem groupScan_mem_mem_aux (tol : Time) :
    ∀ (n : ℕ) (l : List Rec), l.length ≤ n →
      ∀ g ∈ groupScan tol l, ∀ x ∈ g, x ∈ l := by
  intro n
  induction n with
  | zero =>
    intro l hl
    have : l = [] := List.eq_nil_of_length_eq_zero (Nat.le_zero.mp hl)
    subst this
    simp [groupScan_nil]
  | succ n ih =>
    intro l hl
    cases l with
    | nil => simp [groupScan_nil]
    | cons r rest =>
      rw [groupScan_cons]
      intro g hg x hx
      rcases List.mem_cons.mp hg with hg | hg
      · subst hg
        rcases List.mem_cons.mp hx with hx | hx
        · exact hx ▸ List.mem_cons_self r rest
        · exact List.mem_cons_of_mem r (List.mem_of_mem_filter hx)
      · have hlen : (rest.filter (fun s => ¬ |s.1 - r.1| ≤ tol)).length ≤ n :=
          (List.length_filter_le _ _).trans (Nat.succ_le_succ_iff.mp hl)
        have := ih _ hlen g hg x hx
        exact List.mem_cons_of_mem r (List.mem_of_mem_filter this)

theorem groupScan_mem_mem (tol : Time) (l : List Rec) :
    ∀ g ∈ groupScan tol l, ∀ x ∈ g, x ∈ l :=
  groupScan_mem_mem_aux tol l.length l le_rfl

theorem groupScan_shape_aux (tol : Time) :
    ∀ (n : ℕ) (l : List Rec), l.length ≤ n →
      ∀ g ∈ groupScan tol l, ∃ h t, g = h :: t ∧ ∀ x ∈ t, |x.1 - h.1| ≤ tol := by
  intro n
  induction n with
  | zero =>
    intro l hl
    have : l = [] := List.eq_nil_of_length_eq_zero (Nat.le_zero.mp hl)
    subst this
    simp [groupScan_nil]
  | succ n ih =>
    intro l hl
    cases l with
    | nil => simp [groupScan_nil]
    | cons r rest =>
      rw [groupScan_cons]
      intro g hg
      rcases List.mem_cons.mp hg with hg | hg
      · exact ⟨r, _, hg, fun x hx => by
          have := List.of_mem_filter hx
          simpa using this⟩
      · have hlen : (rest.filter (fun s => ¬ |s.1 - r.1| ≤ tol)).length ≤ n :=
          (List.length_filter_le _ _).trans (Nat.succ_le_succ_iff.mp hl)
        exact ih _ hlen g hg

theorem groupScan_shape (tol : Time) (l : List Rec) :
    ∀ g ∈ groupScan tol l, ∃ h t, g = h :: t ∧ ∀ x ∈ t, |x.1 - h.1| ≤ tol :=
  groupScan_shape_aux tol l.length l le_rfl

theorem groupScan_ne_nil (tol : Time) (l : List Rec) :
    ∀ g ∈ groupScan tol l, g ≠ [] := by
  intro g hg
  obtain ⟨h, t, rfl, -⟩ := groupScan_shape tol l g hg
  simp

/-! ## Facts about the median -/

theorem median_singleton (t : Time) : median [t] = t := by
  simp [median, List.insertionSort, List.orderedInsert]

theorem median_le (c : ℚ) (l : List Time) (hne : l ≠ [])
    (h : ∀ x ∈ l, x ≤ c) : median l ≤ c := by
  unfold median
  set s := List.insertionSort (fun a b => a ≤ b) l with hs
  have hperm : s.Perm l := List.perm_insertionSort _ l
  have hmem : ∀ x ∈ s, x ≤ c := fun x hx => h x (hperm.mem_iff.mp hx)
  have hpos : 0 < s.length := by
    rw [hperm.length_eq]
    exact List.length_pos.mpr hne
  by_cases hodd : s.length % 2 = 1
  · simp only [hodd, if_pos]
    have hlt : s.length / 2 < s.length := Nat.div_lt_self hpos (by norm_num)
    rw [List.getD_eq_getElem s 0 hlt]
    exact hmem _ (List.getElem_mem hlt)
  · simp only [hodd, if_neg, if_false]
    have hlt2 : s.length / 2 < s.length := Nat.div_lt_self hpos (by norm_num)
    have hlt1 : s.length / 2 - 1 < s.length := lt_of_le_of_lt (Nat.sub_le _ _) hlt2
    rw [List.getD_eq_getElem s 0 hlt1, List.getD_eq_getElem s 0 hlt2]
    have ha := hmem _ (List.getElem_mem hlt1)
    have hb := hmem _ (List.getElem_mem hlt2)
    linarith

theorem lt_median (c : ℚ) (l : List Time) (hne : l ≠ [])
    (h : ∀ x ∈ l, c < x) : c < median l := by
  unfold median
  set s := List.insertionSort (fun a b => a ≤ b) l with hs
  have hperm : s.Perm l := List.perm_insertionSort _ l
  have hmem : ∀ x ∈ s, c < x := fun x hx => h x (hperm.mem_iff.mp hx)
  have hpos : 0 < s.length := by
    rw [hperm.length_eq]
    exact List.length_pos.mpr hne
  by_cases hodd : s.length % 2 = 1
  · simp only [hodd, if_pos]
    have hlt : s.length / 2 < s.length := Nat.div_lt_self hpos (by norm_num)
    rw [List.getD_eq_getElem s 0 hlt]
    exact hmem _ (List.getElem_mem hlt)
  · simp only [hodd, if_neg, if_false]
    have hlt2 : s.length / 2 < s.length := Nat.div_lt_self hpos (by norm_num)
    have hlt1 : s.length / 2 - 1 < s.length := lt_of_le_of_lt (Nat.sub_le _ _) hlt2
    rw [List.getD_eq_getElem s 0 hlt1, List.getD_eq_getElem s 0 hlt2]
    have ha := hmem _ (List.getElem_mem hlt1)
    have hb := hmem _ (List.getElem_mem hlt2)
    linarith

/-! ## The grouping scan on sorted input -/

theorem filter_close_append_far (tol : Time) (r : Rec) :
    ∀ rest : List Rec, (∀ x ∈ rest, r.1 ≤ x.1) →
      List.Sorted (fun a b : Rec => a.1 ≤ b.1) rest →
      rest.filter (fun s => |s.1 - r.1| ≤ tol) ++
        rest.filter (fun s => ¬ |s.1 - r.1| ≤ tol) = rest := by
  intro rest
  induction rest with
  | nil => simp
  | cons x xs ih =>
    intro hlb hs
    obtain ⟨hx_xs, hxs⟩ := List.sorted_cons.mp hs
    by_cases hx : |x.1 - r.1| ≤ tol
    · rw [List.filter_cons_of_pos (by simpa using hx),
        List.filter_cons_of_neg (by simpa using hx), List.cons_append,
        ih (fun y hy => hlb y (List.mem_cons_of_mem x hy)) hxs]
    · have hrx : r.1 ≤ x.1 := hlb x (List.mem_cons_self x xs)
      have htolx : tol < x.1 - r.1 := by
        rw [abs_of_nonneg (sub_nonneg.mpr hrx)] at hx
        exact lt_of_not_le hx
      have hfarall : ∀ y ∈ xs, ¬ |y.1 - r.1| ≤ tol := by
        intro y hy
        have hxy : x.1 ≤ y.1 := hx_xs y hy
        have hry : r.1 ≤ y.1 := hrx.trans hxy
        rw [abs_of_nonneg (sub_nonneg.mpr hry)]
        intro hcon
        linarith
      have hclose : xs.filter (fun s => |s.1 - r.1| ≤ tol) = [] := by
        rw [List.filter_eq_nil_iff]
        intro y hy
        simpa using hfarall y hy
      have hfar : xs.filter (fun s => ¬ |s.1 - r.1| ≤ tol) = xs := by
        rw [List.filter_eq_self]
        intro y hy
        simpa using hfarall y hy
      rw [List.filter_cons_of_neg (by simpa using hx),
        List.filter_cons_of_pos (by simpa using hx), hclose, hfar,
        List.nil_append]

theorem groupScan_flatten_aux (tol : Time) :
    ∀ (n : ℕ) (l : List Rec), l.length ≤ n →
      List.Sorted (fun a b : Rec => a.1 ≤ b.1) l →
      (groupScan tol l).flatten = l := by
  intro n
  induction n with
  | zero =>
    intro l hl _
    have : l = [] := List.eq_nil_of_length_eq_zero (Nat.le_zero.mp hl)
    subst this
    simp [groupScan_nil]
  | succ n ih =>
    intro l hl hs
    cases l with
    | nil => simp [groupScan_nil]
    | cons r rest =>
      obtain ⟨hlb, hrest⟩ := List.sorted_cons.mp hs
      rw [groupScan_cons]
      have hlen : (rest.filter (fun s => ¬ |s.1 - r.1| ≤ tol)).length ≤ n :=
        (List.length_filter_le _ _).trans (Nat.succ_le_succ_iff.mp hl)
      simp only [List.flatten_cons, List.cons_append]
      rw [ih _ hlen (hrest.filter _)]
      rw [filter_close_append_far tol r rest hlb hrest]

/-- On sorted input, the group medians emitted by the scan are strictly
increasing, provided the tolerance is nonnegative. -/
theorem medians_lt_aux (tol : Time) (htol : 0 ≤ tol) :
    ∀ (n : ℕ) (l : List Rec), l.length ≤ n →
      List.Sorted (fun a b : Rec => a.1 ≤ b.1) l →
      ((groupScan tol l).map (fun g => median (g.map Prod.fst))).Pairwise (· < ·) := by
  intro n
  induction n with
  | zero =>
    intro l hl _
    have : l = [] := List.eq_nil_of_length_eq_zero (Nat.le_zero.mp hl)
    subst this
    simp [groupScan_nil]
  | succ n ih =>
    intro l hl hs
    cases l with
    | nil => simp [groupScan_nil]
    | cons r rest =>
      obtain ⟨hlb, hrest⟩ := List.sorted_cons.mp hs
      rw [groupScan_cons]
      have hlen : (rest.filter (fun s => ¬ |s.1 - r.1| ≤ tol)).length ≤ n :=
        (List.length_filter_le _ _).trans (Nat.succ_le_succ_iff.mp hl)
      simp only [List.map_cons]
      refine List.Pairwise.cons ?_ (ih _ hlen (hrest.filter _))
      intro m hm
      obtain ⟨g, hgmem, rfl⟩ := List.mem_map.mp hm
      have h1 : median ((r :: rest.filter (fun s => |s.1 - r.1| ≤ tol)).map Prod.fst) ≤
          r.1 + tol := by
        apply median_le
        · simp
        · intro x hx
          obtain ⟨y, hy, rfl⟩ := List.mem_map.mp hx
          rcases List.mem_cons.mp hy with hy | hy
          · subst hy
            linarith
          · have := List.of_mem_filter hy
            have habs : |y.1 - r.1| ≤ tol := by simpa using this
            have := (abs_le.mp habs).2
            linarith
      have h2 : r.1 + tol < median (g.map Prod.fst) := by
        apply lt_median
        · have := groupScan_ne_nil tol _ g hgmem
          simpa using this
        · intro x hx
          obtain ⟨y, hy, rfl⟩ := List.mem_map.mp hx
          have hyfar := groupScan_mem_mem tol _ g hgmem y hy
          have hyrest : y ∈ rest := List.mem_of_mem_filter hyfar
          have hynotc := List.of_mem_filter hyfar
          have hyabs : ¬ |y.1 - r.1| ≤ tol := by simpa using hynotc
          have hry : r.1 ≤ y.1 := hlb y hyrest
          rw [abs_of_nonneg (sub_nonneg.mpr hry)] at hyabs
          have := lt_of_not_le hyabs
          linarith
      exact lt_of_le_of_lt h1 h2

/-- With a negative tolerance no record is ever absorbed: every group is a
singleton. -/
theorem groupScan_neg_aux (tol : Time) (htol : tol < 0) :
    ∀ (n : ℕ) (l : List Rec), l.length ≤ n →
      groupScan tol l = l.map (fun r => [r]) := by
  intro n
  induction n with
  | zero =>
    intro l hl
    have : l = [] := List.eq_nil_of_length_eq_zero (Nat.le_zero.mp hl)
    subst this
    simp [groupScan_nil]
  | succ n ih =>
    intro l hl
    cases l with
    | nil => simp [groupScan_nil]
    | cons r rest =>
      rw [groupScan_cons]
      have hclose : rest.filter (fun s => |s.1 - r.1| ≤ tol) = [] := by
        rw [List.filter_eq_nil_iff]
        intro y _
        have : ¬ |y.1 - r.1| ≤ tol := fun hcon => absurd (abs_nonneg _ |>.trans hcon) (not_le.mpr htol)
        simpa using this
      have hfar : rest.filter (fun s => ¬ |s.1 - r.1| ≤ tol) = rest := by
        rw [List.filter_eq_self]
        intro y _
        have : ¬ |y.1 - r.1| ≤ tol := fun hcon => absurd (abs_nonneg _ |>.trans hcon) (not_le.mpr htol)
        simpa using this
      rw [hclose, hfar, List.map_cons]
      rw [ih _ (Nat.succ_le_succ_iff.mp hl)]

/-- On sorted input the group medians are non-decreasing, for any tolerance. -/
theorem medians_le_of_sorted (tol : Time) (l : List Rec)
    (hs : List.Sorted (fun a b : Rec => a.1 ≤ b.1) l) :
    ((groupScan tol l).map (fun g => median (g.map Prod.fst))).Pairwise (· ≤ ·) := by
  rcases le_or_lt 0 tol with htol | htol
  · exact (medians_lt_aux tol htol l.length l le_rfl hs).imp le_of_lt
  · rw [groupScan_neg_aux tol htol l.length l le_rfl, List.map_map]
    rw [List.pairwise_map]
    refine hs.imp ?_
    intro a b hab
    simpa [Function.comp, median_singleton] using hab

theorem aggregateRecords_sorted_le (tol : Time) (n : ℕ) (recs : List Rec) :
    List.Sorted (· ≤ ·) (aggregateRecords tol n recs).1 := by
  have h := medians_le_of_sorted tol _ (sortRecords_sorted recs)
  have hsub : ((keptGroups n (groupScan tol (sortRecords recs))).map
        (fun g => median (g.map Prod.fst))).Sublist
      ((groupScan tol (sortRecords recs)).map (fun g => median (g.map Prod.fst))) :=
    (List.filter_sublist _).map _
  exact List.Pairwise.sublist hsub h

theorem aggregateRecords_sorted_lt (tol : Time) (htol : 0 ≤ tol) (n : ℕ)
    (recs : List Rec) :
    List.Sorted (· < ·) (aggregateRecords tol n recs).1 := by
  have h := medians_lt_aux tol htol _ (sortRecords recs) le_rfl (sortRecords_sorted recs)
  have hsub : ((keptGroups n (groupScan tol (sortRecords recs))).map
        (fun g => median (g.map Prod.fst))).Sublist
      ((groupScan tol (sortRecords recs)).map (fun g => median (g.map Prod.fst))) :=
    (List.filter_sublist _).map _
  exact List.Pairwise.sublist hsub h

theorem aggregateRecords_nodup (tol : Time) (htol : 0 ≤ tol) (n : ℕ)
    (recs : List Rec) :
    (aggregateRecords tol n recs).1.Nodup :=
  (aggregateRecords_sorted_lt tol htol n recs).imp ne_of_lt

/-! ## Unpacking the full pipeline -/

theorem detect_changepoints_ok (detector : String → List ℚ → List ℕ)
    (index : List Time) (cols : List (String × List (Option ℚ)))
    (method : String) (minSize : ℕ) (tol : Time) (n : ℕ)
    (out : List Time × List (Time × List String))
    (h : detect_changepoints detector index cols method minSize tol n = .ok out) :
    ∃ per, detectPerFeature detector index minSize method cols = .ok per ∧
      out = aggregateRecords tol n (bkpRecords per) := by
  unfold detect_changepoints at h
  cases hd : detectPerFeature detector index minSize method cols with
  | error e =>
    rw [hd] at h
    exact absurd h (by simp)
  | ok per =>
    rw [hd] at h
    simp only [Except.ok.injEq] at h
    exact ⟨per, rfl, h.symm⟩

theorem exceedsBy_none_right (a : Option ℚ) (thr : ℚ) :
    exceedsBy a none thr = false := by
  cases a <;> rfl

theorem exceedsBy_none_left (b : Option ℚ) (thr : ℚ) :
    exceedsBy none b thr = false := by
  cases b <;> rfl

/-- Every session emitted by the scan pairs a breakpoint with its immediate
successor in the (strictly sorted) consensus list, rises then falls across
the pair, and respects the 24-hour bound. -/
theorem sessions_valid_of_sorted (df : LoadTable) (thr : ℚ) (bkps : List Time)
    (hs : List.Sorted (· < ·) bkps) :
    ∀ se ∈ detect_sessions df bkps thr,
      se.1 < se.2 ∧ se.2 - se.1 ≤ 24 ∧ se.1 ∈ bkps ∧ se.2 ∈ bkps ∧
      ∃ i : ℕ, bkps[i]? = some se.1 ∧ bkps[i + 1]? = some se.2 := by
  intro se hse
  obtain ⟨i, hir, hsome⟩ := List.mem_filterMap.mp hse
  have hi : i < bkps.length := List.mem_range.mp hir
  simp only [sessionAt] at hsome
  split_ifs at hsome with h1 h2 h3
  · obtain rfl : (bkps.getD i 0, bkps.getD (i + 1) 0) = se := by
      simpa using hsome
    have hii : i + 1 < bkps.length := h2
    have hgd1 : bkps.getD i 0 = bkps[i] := List.getD_eq_getElem bkps 0 hi
    have hgd2 : bkps.getD (i + 1) 0 = bkps[i + 1] := List.getD_eq_getElem bkps 0 hii
    have hlt : bkps[i] < bkps[i + 1] := by
      have := @List.Sorted.rel_get_of_lt _ _ _ hs ⟨i, hi⟩ ⟨i + 1, hii⟩
        (by simp [Fin.lt_def])
      simpa using this
    refine ⟨?_, ?_, ?_, ?_, i, ?_, ?_⟩
    · show bkps.getD i 0 < bkps.getD (i + 1) 0
      rw [hgd1, hgd2]
      exact hlt
    · show bkps.getD (i + 1) 0 - bkps.getD i 0 ≤ 24
      exact h3.2
    · show bkps.getD i 0 ∈ bkps
      rw [hgd1]
      exact List.getElem_mem hi
    · show bkps.getD (i + 1) 0 ∈ bkps
      rw [hgd2]
      exact List.getElem_mem hii
    · show bkps[i]? = some (bkps.getD i 0)
      rw [hgd1]
      exact List.getElem?_eq_getElem hi
    · show bkps[i + 1]? = some (bkps.getD (i + 1) 0)
      rw [hgd2]
      exact List.getElem?_eq_getElem hii

/-! ## Concrete inputs used by witnesses -/

/-- A concrete Breakpoint Source oracle: every signal has breakpoints at
compacted positions 2 and 6. -/
def egDetector : String → List ℚ → List ℕ := fun _ _ => [2, 6]

def egIndex : List Time := [8, 9, 10, 11, 12, 13, 14, 15, 16]

def egCols : List (String × List (Option ℚ)) :=
  [("a", List.replicate 9 (some 0)), ("b", List.replicate 9 (some 0))]

def egOut : List Time × List (Time × List String) :=
  ([10, 14], [(10, ["a", "b"]), (14, ["a", "b"])])

def egLoad : LoadTable :=
  [(8, 0), (9, 0), (10, 5), (11, 5), (12, 5), (13, 0), (14, 0), (15, 0), (16, 0)]

/-! ## Claims -/

/-- Claim C1: the code maps each detector-returned index through the SHARED
table index (`features_df.index[bkp]`, line 65), not through the column's own
retained sample positions after `dropna`.  With a missing value at position 0
and a breakpoint at compacted index 3, the emitted timestamp is 3, while the
column's retained samples carry timestamp 4 at position 3 — so the claim's
required behaviour does not hold of the code. -/
theorem shared_axis_mapping :
    detectPerFeature (fun _ _ => [3]) [0, 1, 2, 3, 4, 5, 6, 7] 2 "pelt"
        [("a", [none, some 1, some 1, some 1, some 5, some 5, some 5, some 5])] =
      .ok [("a", [3])] ∧
    (retainedTimestamps [0, 1, 2, 3, 4, 5, 6, 7]
        [none, some 1, some 1, some 1, some 5, some 5, some 5, some 5]).getD 3 0 = 4 ∧
    (3 : Time) ≠ 4 :=
  ⟨by rfl, by decide, by decide⟩

/-- Claim C2 counterexample: with tolerance 4 and raw breakpoints at 0, 3 and
6, the record at 6 lies within tolerance of the already-grouped member at 3,
yet it is NOT absorbed into that group: the scan opens a second group.  So
membership is not single-link proximity to any member. -/
theorem grouping_not_transitive :
    groupScan 4 (sortRecords [(0, "A"), (3, "B"), (6, "C")]) =
      [[(0, "A"), (3, "B")], [(6, "C")]] ∧
    |(6 : Time) - 3| ≤ 4 ∧ ((6 : Time), "C") ∉ [((0 : Time), "A"), ((3 : Time), "B")] :=
  ⟨by decide, by decide, by decide⟩

/-- Claim C2 amended: membership in a Breakpoint Group is anchored to the
group's SEED (its first record): the scan partitions the sorted record list
into contiguous groups, and every non-seed member lies within
`merge_tolerance` of the seed's timestamp. -/
theorem grouping_seed_anchored (tol : Time) (recs : List Rec) :
    (groupScan tol (sortRecords recs)).flatten = sortRecords recs ∧
    ∀ g ∈ groupScan tol (sortRecords recs),
      ∃ h t, g = h :: t ∧ ∀ x ∈ t, |x.1 - h.1| ≤ tol :=
  ⟨groupScan_flatten_aux tol _ _ le_rfl (sortRecords_sorted recs),
   groupScan_shape tol _⟩

theorem grouping_seed_anchored_witness :
    (groupScan 4 (sortRecords [(0, "A"), (3, "B"), (6, "C")])).flatten =
      sortRecords [(0, "A"), (3, "B"), (6, "C")] ∧
    ∀ g ∈ groupScan 4 (sortRecords [(0, "A"), (3, "B"), (6, "C")]),
      ∃ h t, g = h :: t ∧ ∀ x ∈ t, |x.1 - h.1| ≤ 4 :=
  grouping_seed_anchored 4 [(0, "A"), (3, "B"), (6, "C")]

/-- Claim C3: the consensus breakpoint list returned by detect_changepoints is
non-decreasing in timestamp, for every input table, detector behaviour and
configuration. -/
theorem detect_changepoints_sorted (detector : String → List ℚ → List ℕ)
    (index : List Time) (cols : List (String × List (Option ℚ)))
    (method : String) (minSize : ℕ) (tol : Time) (n : ℕ)
    (out : List Time × List (Time × List String))
    (h : detect_changepoints detector index cols method minSize tol n = .ok out) :
    List.Sorted (· ≤ ·) out.1 := by
  obtain ⟨per, -, rfl⟩ :=
    detect_changepoints_ok detector index cols method minSize tol n out h
  exact aggregateRecords_sorted_le tol n (bkpRecords per)

theorem detect_changepoints_sorted_witness : List.Sorted (· ≤ ·) egOut.1 :=
  detect_changepoints_sorted egDetector egIndex egCols "pelt" 2 1 2 egOut (by rfl)

/-- Claim C4: every Session Interval emitted by detect_sessions over a
consensus breakpoint list (the first output of detect_changepoints, with a
nonnegative merge tolerance) pairs a breakpoint with its immediate successor,
satisfies start < end, and lasts at most 24 hours. -/
theorem detect_sessions_valid (df : LoadTable) (thr : ℚ)
    (detector : String → List ℚ → List ℕ) (index : List Time)
    (cols : List (String × List (Option ℚ))) (method : String)
    (minSize : ℕ) (tol : Time) (n : ℕ) (bkps : List Time)
    (contrib : List (Time × List String)) (htol : 0 ≤ tol)
    (hbk : detect_changepoints detector index cols method minSize tol n =
      .ok (bkps, contrib)) :
    ∀ se ∈ detect_sessions df bkps thr,
      se.1 < se.2 ∧ se.2 - se.1 ≤ 24 ∧ se.1 ∈ bkps ∧ se.2 ∈ bkps ∧
      ∃ i : ℕ, bkps[i]? = some se.1 ∧ bkps[i + 1]? = some se.2 := by
  obtain ⟨per, hper, hout⟩ :=
    detect_changepoints_ok detector index cols method minSize tol n (bkps, contrib) hbk
  have hb : bkps = (aggregateRecords tol n (bkpRecords per)).1 :=
    congrArg Prod.fst hout
  have hs : List.Sorted (· < ·) bkps := by
    rw [hb]
    exact aggregateRecords_sorted_lt tol htol n _
  exact sessions_valid_of_sorted df thr bkps hs

theorem detect_sessions_valid_witness :
    ((10 : Time), (14 : Time)).1 < ((10 : Time), (14 : Time)).2 ∧
    ((10 : Time), (14 : Time)).2 - ((10 : Time), (14 : Time)).1 ≤ 24 ∧
    ((10 : Time), (14 : Time)).1 ∈ egOut.1 ∧
    ((10 : Time), (14 : Time)).2 ∈ egOut.1 ∧
    ∃ i : ℕ, egOut.1[i]? = some ((10 : Time), (14 : Time)).1 ∧
      egOut.1[i + 1]? = some ((10 : Time), (14 : Time)).2 :=
  detect_sessions_valid egLoad 1 egDetector egIndex egCols "pelt" 2 1 2
    egOut.1 egOut.2 (by norm_num) (by rfl) (10, 14) (by decide)

/-- Claim C5: a group is emitted as a consensus breakpoint iff it has at least
`n_contributing_features` DISTINCT contributing feature names, and the emitted
timestamp is the interpolating median of ALL member timestamps (duplicates
included); in particular a two-member group at 10:00 and 10:03 (= 201/20 h)
yields exactly one consensus breakpoint at 10:01:30 (= 401/40 h) attributed
to both features. -/
theorem consensus_iff_distinct_features (n : ℕ) (groups : List (List Rec))
    (t : Time) :
    (t ∈ (aggregateGroups n groups).1 ↔
      ∃ g ∈ groups, n ≤ (groupFeats g).length ∧ median (g.map Prod.fst) = t) ∧
    aggregateRecords 4 2 [(10, "A"), (201 / 20, "B")] =
      ([401 / 40], [(401 / 40, ["A", "B"])]) := by
  constructor
  · simp only [aggregateGroups, keptGroups, List.mem_map, List.mem_filter,
      decide_eq_true_eq]
    constructor
    · rintro ⟨g, ⟨hg, hn⟩, rfl⟩
      exact ⟨g, hg, hn, rfl⟩
    · rintro ⟨g, hg, hn, rfl⟩
      exact ⟨g, ⟨hg, hn⟩, rfl⟩
  · decide

theorem consensus_iff_distinct_features_witness :
    ((401 / 40 : Time) ∈ (aggregateGroups 2 [[(10, "A"), (201 / 20, "B")]]).1 ↔
      ∃ g ∈ [[((10 : Time), "A"), ((201 / 20 : Time), "B")]],
        2 ≤ (groupFeats g).length ∧ median (g.map Prod.fst) = 401 / 40) ∧
    aggregateRecords 4 2 [(10, "A"), (201 / 20, "B")] =
      ([401 / 40], [(401 / 40, ["A", "B"])]) :=
  consensus_iff_distinct_features 2 [[(10, "A"), (201 / 20, "B")]] (401 / 40)

theorem keptGroups_antitone (n m : ℕ) (h : n ≤ m) (groups : List (List Rec)) :
    (keptGroups m groups).Sublist (keptGroups n groups) :=
  List.monotone_filter_right _ (fun g hg => by
    simp only [decide_eq_true_eq] at hg ⊢
    exact h.trans hg)

/-- Claim C6: for a fixed table and detector configuration, raising
`n_contributing_features` from `n` to `m ≥ n` makes the consensus list a
sublist of the original, so the count of consensus breakpoints never grows. -/
theorem consensus_antitone (detector : String → List ℚ → List ℕ)
    (index : List Time) (cols : List (String × List (Option ℚ)))
    (method : String) (minSize : ℕ) (tol : Time) (n m : ℕ)
    (out outm : List Time × List (Time × List String)) (h : n ≤ m)
    (ho : detect_changepoints detector index cols method minSize tol n = .ok out)
    (hom : detect_changepoints detector index cols method minSize tol m = .ok outm) :
    outm.1.Sublist out.1 ∧ outm.1.length ≤ out.1.length := by
  obtain ⟨per, hper, rfl⟩ :=
    detect_changepoints_ok detector index cols method minSize tol n out ho
  obtain ⟨per2, hper2, rfl⟩ :=
    detect_changepoints_ok detector index cols method minSize tol m outm hom
  rw [hper] at hper2
  injection hper2 with hpe
  subst hpe
  have hsub : ((keptGroups m (groupScan tol (sortRecords (bkpRecords per)))).map
      (fun g => median (g.map Prod.fst))).Sublist
      ((keptGroups n (groupScan tol (sortRecords (bkpRecords per)))).map
      (fun g => median (g.map Prod.fst))) :=
    (keptGroups_antitone n m h _).map _
  exact ⟨hsub, hsub.length_le⟩

theorem consensus_antitone_witness :
    (([], []) : List Time × List (Time × List String)).1.Sublist egOut.1 ∧
    (([], []) : List Time × List (Time × List String)).1.length ≤ egOut.1.length :=
  consensus_antitone egDetector egIndex egCols "pelt" 2 1 2 3 egOut ([], [])
    (by norm_num) (by rfl) (by rfl)

/-- Claim C7: an empty before/after window reduction (pandas NaN) fails the
significance tests instead of raising: if either window around `bkp_i` or the
lookahead window around `bkp_{i+1}` reduces over an empty slice, the scan
emits no session at index `i` (and, the embedding being total, nothing is
raised). -/
theorem empty_window_fails_closed (df : LoadTable) (thr : ℚ) (bkps : List Time)
    (i : ℕ) :
    ((sliceMin df (bkps.getD i 0 - 2) (bkps.getD i 0) = none ∨
        sliceMax df (bkps.getD i 0) (bkps.getD i 0 + 2) = none) →
      sessionAt df thr bkps i = none) ∧
    (sliceMin df (bkps.getD (i + 1) 0) (bkps.getD (i + 1) 0 + 2) = none →
      sessionAt df thr bkps i = none) := by
  constructor
  · rintro (h | h) <;>
      simp only [List.getD_eq_getElem?_getD] at h <;>
      simp [sessionAt, h, exceedsBy_none_right, exceedsBy_none_left, ite_self]
  · intro h
    simp only [List.getD_eq_getElem?_getD] at h
    simp [sessionAt, h, exceedsBy_none_right, ite_self]

theorem empty_window_fails_closed_witness :
    sliceMin ([] : LoadTable) (([0] : List Time).getD 0 0 - 2)
      (([0] : List Time).getD 0 0) = none ∧
    sessionAt ([] : LoadTable) 1 [0] 0 = none :=
  ⟨by decide, (empty_window_fails_closed [] 1 [0] 0).1 (Or.inl (by decide))⟩

/-- Claim C8: a breakpoint used as a session end is not marked consumed: on
this input the scan emits (10, 14) and then re-examines 14 as a start
candidate and emits (14, 18), so chained sessions share the endpoint 14. -/
theorem sessions_share_endpoint :
    detect_sessions
        [(8, 0), (9, 0), (10, 5), (11, 5), (12, 5), (13, 0), (14, 0), (15, 8),
         (16, 8), (17, 8), (18, 0), (19, 0), (20, 0)]
        [10, 14, 18] 1 = [(10, 14), (14, 18)] := by decide

/-- Claim C9 counterexample: with an unknown method name but no feature column
holding at least `2 * min_size_hours` valid samples, the dispatch on `method`
is never reached: detect_changepoints returns empty outputs instead of
raising, so the claim fails for such tables. -/
theorem unknown_method_no_raise :
    detect_changepoints (fun _ _ => []) [0, 1, 2]
      [("a", [some 1, some 2, some 3])] "foo" 2 4 2 = .ok ([], []) := by rfl

theorem detectPerFeature_unknown_method (detector : String → List ℚ → List ℕ)
    (index : List Time) (minSize : ℕ) (method : String)
    (hm : supportedMethod method = false) :
    ∀ cols : List (String × List (Option ℚ)),
      (∃ p ∈ cols, 2 * minSize ≤ (p.2.filterMap id).length) →
      detectPerFeature detector index minSize method cols =
        .error ("Unknown method: " ++ method) := by
  intro cols
  induction cols with
  | nil =>
    rintro ⟨p, hp, -⟩
    cases hp
  | cons c rest ih =>
    obtain ⟨name, col⟩ := c
    rintro ⟨p, hp, hlen⟩
    rcases List.mem_cons.mp hp with rfl | hp
    · simp only [detectPerFeature]
      rw [if_neg (not_lt.mpr hlen), if_neg (by simp [hm])]
    · simp only [detectPerFeature]
      by_cases hc : (col.filterMap id).length < 2 * minSize
      · rw [if_pos hc]
        exact ih ⟨p, hp, hlen⟩
      · rw [if_neg hc, if_neg (by simp [hm])]

/-- Claim C9 amended: for every input table with a valid datetime axis IN
WHICH AT LEAST ONE feature column has at least `2 * min_size_hours` valid
samples, an unsupported method value makes detect_changepoints fail with the
unknown-method error and produce no output. -/
theorem unknown_method_raises (detector : String → List ℚ → List ℕ)
    (index : List Time) (cols : List (String × List (Option ℚ)))
    (method : String) (minSize : ℕ) (tol : Time) (n : ℕ)
    (hm : supportedMethod method = false)
    (hc : ∃ p ∈ cols, 2 * minSize ≤ (p.2.filterMap id).length) :
    detect_changepoints detector index cols method minSize tol n =
      .error ("Unknown method: " ++ method) := by
  unfold detect_changepoints
  rw [detectPerFeature_unknown_method detector index minSize method hm cols hc]

theorem unknown_method_raises_witness :
    supportedMethod "foo" = false ∧
    detect_changepoints (fun _ _ => []) [0, 1, 2, 3]
        [("a", [some 1, some 2, some 3, some 4])] "foo" 2 4 2 =
      .error ("Unknown method: " ++ "foo") :=
  ⟨by decide, unknown_method_raises (fun _ _ => []) [0, 1, 2, 3]
    [("a", [some 1, some 2, some 3, some 4])] "foo" 2 4 2 (by decide)
    ⟨("a", [some 1, some 2, some 3, some 4]), by decide, by decide⟩⟩

/-- Claim C10: the two outputs of detect_changepoints are mutually consistent
(for a nonnegative merge tolerance, as configured): the dictionary keys are
exactly the aggregated list in order, that list has no duplicate timestamps,
and every dictionary value is a non-empty duplicate-free feature list with at
least `n_contributing_features` entries. -/
theorem outputs_consistent (detector : String → List ℚ → List ℕ)
    (index : List Time) (cols : List (String × List (Option ℚ)))
    (method : String) (minSize : ℕ) (tol : Time) (n : ℕ)
    (out : List Time × List (Time × List String)) (htol : 0 ≤ tol)
    (h : detect_changepoints detector index cols method minSize tol n = .ok out) :
    out.2.map Prod.fst = out.1 ∧ out.1.Nodup ∧
    ∀ p ∈ out.2, p.2 ≠ [] ∧ p.2.Nodup ∧ n ≤ p.2.length := by
  obtain ⟨per, -, rfl⟩ :=
    detect_changepoints_ok detector index cols method minSize tol n out h
  refine ⟨?_, aggregateRecords_nodup tol htol n _, ?_⟩
  · show ((keptGroups n (groupScan tol (sortRecords (bkpRecords per)))).map
        (fun g => (median (g.map Prod.fst), groupFeats g))).map Prod.fst = _
    rw [List.map_map]
    rfl
  · intro p hp
    obtain ⟨g, hg, rfl⟩ := List.mem_map.mp hp
    have hgmem : g ∈ groupScan tol (sortRecords (bkpRecords per)) :=
      List.mem_of_mem_filter hg
    obtain ⟨a, t2, rfl, -⟩ := groupScan_shape tol _ g hgmem
    refine ⟨?_, List.nodup_dedup _, ?_⟩
    · simp [groupFeats]
    · have := List.of_mem_filter hg
      simpa using this

theorem outputs_consistent_witness :
    (0 : Time) ≤ 1 ∧
    (egOut.2.map Prod.fst = egOut.1 ∧ egOut.1.Nodup ∧
      ∀ p ∈ egOut.2, p.2 ≠ [] ∧ p.2.Nodup ∧ 2 ≤ p.2.length) :=
  ⟨by norm_num, outputs_consistent egDetector egIndex egCols "pelt" 2 1 2 egOut
    (by norm_num) (by rfl)⟩

end

end CPD
